import Mathlib

/-!
Shallow embedding of `src/pmr_queue.h`: the tracking allocator
`DynamicMemoryResource` and the allocator-aware FIFO queue `PmrQueue`,
together with proofs of the specified properties.

Raw pointers are modelled as natural-number addresses; the null pointer is
`Option.none`.  Memory is modelled explicitly: an association list of
constructed nodes, plus lists of live raw blocks.  Fallible operations
return `Option`, where `none` marks undefined behaviour (a dereference of a
pointer that holds no constructed node); a C++ exception is modelled as an
explicit `Bool` flag in the result, so that the post-throw state remains
observable.
-/

namespace PmrSpec

/-- Record of one outstanding allocation held by the tracking allocator:
`DynamicMemoryResource::Block` with fields `address` and `bytes`. -/
structure Block where
  address : Nat
  bytes : Nat
deriving DecidableEq

/-- State of a `DynamicMemoryResource` together with its parent resource.
`active_blocks` is the allocator's record list; `upstream` is the list of
blocks the parent resource currently has outstanding; `upNext` generates
fresh addresses on behalf of the parent. -/
structure AllocState where
  active_blocks : List Block
  upstream : List Block
  upNext : Nat
deriving DecidableEq

/-- Effect of `parent_resource->deallocate(ptr, ...)`: the parent frees its
(first) outstanding block at this address. -/
def upstreamFree (up : List Block) (ptr : Nat) : List Block :=
  up.eraseP (fun b => b.address == ptr)

/-- Embedding of `DynamicMemoryResource::do_allocate`.  The parent returns a
fresh address and registers the block upstream; the allocator then records
`{address, bytes}` by `emplace_back` on `active_blocks`.  `recordFails`
models the bookkeeping insertion throwing, in which case the fresh block is
handed back to the parent and the exception propagates.  Result: the
returned address (if any), the new state, and whether an exception
propagated. -/
def do_allocate (s : AllocState) (bytes : Nat) (recordFails : Bool) :
    Option Nat × AllocState × Bool :=
  let addr := s.upNext
  let s1 : AllocState :=
    { s with upstream := ⟨addr, bytes⟩ :: s.upstream, upNext := s.upNext + 1 }
  if recordFails then
    (none, { s1 with upstream := upstreamFree s1.upstream addr }, true)
  else
    (some addr, { s1 with active_blocks := s1.active_blocks ++ [⟨addr, bytes⟩] }, false)

/-- Embedding of `DynamicMemoryResource::do_deallocate`: `find_if` the first
recorded block whose address equals `ptr`; if found, forward the free to the
parent and erase that record; otherwise do nothing. -/
def do_deallocate (s : AllocState) (ptr : Nat) (_bytes : Nat) : AllocState :=
  if ((s.active_blocks.find? (fun b => b.address == ptr)).isSome) then
    { s with
      upstream := upstreamFree s.upstream ptr,
      active_blocks := s.active_blocks.eraseP (fun b => b.address == ptr) }
  else s

/-- One client call into the tracking allocator. -/
inductive AllocOp where
  | alloc (bytes : Nat) (recordFails : Bool)
  | dealloc (ptr : Nat) (bytes : Nat)
deriving DecidableEq

/-- Run a trace of client calls against the tracking allocator. -/
def runAlloc : AllocState → List AllocOp → AllocState
  | s, [] => s
  | s, AllocOp.alloc b rf :: ops => runAlloc (do_allocate s b rf).2.1 ops
  | s, AllocOp.dealloc p b :: ops => runAlloc (do_deallocate s p b) ops

/-- A freshly constructed `DynamicMemoryResource` over a fresh parent. -/
def initAlloc : AllocState := ⟨[], [], 0⟩

/-- Specification-level ledger of a trace: the addresses handed out by the
successful allocate calls and not yet explicitly deallocated, oldest first.
The `next` argument mirrors the parent's fresh-address counter. -/
def ledger : Nat → List Nat → List AllocOp → List Nat
  | _, outs, [] => outs
  | next, outs, AllocOp.alloc _ rf :: ops =>
      ledger (next + 1) (if rf then outs else outs ++ [next]) ops
  | next, outs, AllocOp.dealloc p _ :: ops =>
      ledger next (outs.erase p) ops

/-- Invariant coupling an allocator state with the ledger of outstanding
addresses: the record list carries exactly those addresses, without
duplicates, and all of them are below the parent's fresh-address counter. -/
def AInv (s : AllocState) (outs : List Nat) : Prop :=
  s.active_blocks.map Block.address = outs ∧ outs.Nodup ∧ ∀ a ∈ outs, a < s.upNext

/-- Embedding of `QueueNode<T>`: one payload plus the forward link
`next_node`, where `none` is the null pointer. -/
structure QueueNode (T : Type) where
  data : T
  next_node : Option Nat
deriving DecidableEq

/-- Node memory shared by the queues: the constructed nodes by address, the
raw blocks each polymorphic allocator currently has live (as pairs
`(allocator handle, address)`), and the next fresh address. -/
structure Mem (T : Type) where
  nodes : List (Nat × QueueNode T)
  alloc : List (Nat × Nat)
  next : Nat
deriving DecidableEq

/-- Read the node constructed at an address; `none` for a null or dangling
pointer (whose dereference is undefined behaviour). -/
def lookupNode (nodes : List (Nat × QueueNode T)) (a : Nat) : Option (QueueNode T) :=
  (nodes.find? (fun p => p.1 == a)).map Prod.snd

/-- Effect of `tail_node->next_node = new_node`: rewrite the link of the node
stored at address `t`. -/
def setNext (nodes : List (Nat × QueueNode T)) (t : Nat) (nxt : Option Nat) :
    List (Nat × QueueNode T) :=
  nodes.map (fun p => if p.1 = t then (p.1, { p.2 with next_node := nxt }) else p)

/-- Effect of `node_allocator.destroy(ptr)`: the node at `a` is no longer
constructed. -/
def eraseNode (nodes : List (Nat × QueueNode T)) (a : Nat) : List (Nat × QueueNode T) :=
  nodes.filter (fun p => p.1 != a)

/-- Effect of `node_allocator.deallocate(ptr, 1)`: the raw block `(al, a)` is
freed. -/
def freeBlock (alloc : List (Nat × Nat)) (al a : Nat) : List (Nat × Nat) :=
  alloc.eraseP (fun p => p.1 == al && p.2 == a)

/-- Embedding of `PmrQueue<T>`: head pointer, tail pointer, the allocator
handle (`node_allocator`) and the element count. -/
structure PmrQueue (T : Type) where
  head_node : Option Nat
  tail_node : Option Nat
  node_allocator : Nat
  element_count : Nat
deriving DecidableEq

/-- A queue as built by `PmrQueue(resource)`: null head and tail, count 0. -/
def initQueue (T : Type) (al : Nat) : PmrQueue T :=
  ⟨none, none, al, 0⟩

/-- Node memory before anything was allocated. -/
def initMem (T : Type) : Mem T := ⟨[], [], 0⟩

/-- Embedding of `PmrQueue::push`.  `constructFails` models the payload
constructor throwing, in which case the raw node storage is deallocated and
the exception propagates before any field of the queue is touched.  On
success the node is constructed at a fresh address, linked after the tail
(or made the head of an empty queue), made the tail, and the count is
incremented.  Result: the queue, the memory, and whether an exception
propagated. -/
def push (q : PmrQueue T) (mem : Mem T) (x : T) (constructFails : Bool) :
    PmrQueue T × Mem T × Bool :=
  let a := mem.next
  let mem1 : Mem T :=
    { mem with alloc := (q.node_allocator, a) :: mem.alloc, next := mem.next + 1 }
  if constructFails then
    (q, { mem1 with alloc := freeBlock mem1.alloc q.node_allocator a }, true)
  else
    let mem2 : Mem T := { mem1 with nodes := (a, ⟨x, none⟩) :: mem1.nodes }
    match q.tail_node with
    | some t =>
        ({ q with tail_node := some a, element_count := q.element_count + 1 },
         { mem2 with nodes := setNext mem2.nodes t (some a) }, false)
    | none =>
        ({ q with head_node := some a, tail_node := some a,
                  element_count := q.element_count + 1 },
         mem2, false)

/-- Embedding of `PmrQueue::pop`.  On an empty queue it returns at once with
nothing changed.  Otherwise the head is detached (and the tail cleared when
the head has no successor), the head's payload destroyed and its storage
deallocated, and the count decremented.  `none` marks the undefined
behaviour of a dangling head pointer. -/
def pop (q : PmrQueue T) (mem : Mem T) : Option (PmrQueue T × Mem T) :=
  match q.head_node with
  | none => some (q, mem)
  | some h =>
    match lookupNode mem.nodes h with
    | none => none
    | some n =>
      some ({ q with head_node := n.next_node,
                     tail_node := if n.next_node = none then none else q.tail_node,
                     element_count := q.element_count - 1 },
            { mem with nodes := eraseNode mem.nodes h,
                       alloc := freeBlock mem.alloc q.node_allocator h })

/-- Embedding of `PmrQueue::front`: `head_node->data`; `none` marks the
undefined behaviour of calling it on an empty queue. -/
def front (q : PmrQueue T) (mem : Mem T) : Option T :=
  q.head_node.bind (fun h => (lookupNode mem.nodes h).map QueueNode.data)

/-- Modelled from the spec: the `back()` accessor described in section 4.3
("`front()` / `back()` accessors: return a reference to the head payload")
is absent from the source; following the spec's words it reads the head
payload, with `none` marking the empty-queue undefined behaviour. -/
def back (q : PmrQueue T) (mem : Mem T) : Option T :=
  q.head_node.bind (fun h => (lookupNode mem.nodes h).map QueueNode.data)

/-- Embedding of `PmrQueue::empty`: `head_node == nullptr`. -/
def empty (q : PmrQueue T) : Bool :=
  q.head_node == none

/-- Embedding of `PmrQueue::size`: the maintained counter. -/
def size (q : PmrQueue T) : Nat :=
  q.element_count

/-- Embedding of `clear_elements` (`while (!empty()) pop();`) with explicit
fuel; `none` when the fuel runs out, which cannot happen for a well-formed
queue. -/
def clearFuel : Nat → PmrQueue T → Mem T → Option (PmrQueue T × Mem T)
  | 0, q, mem => if q.head_node = none then some (q, mem) else none
  | fuel + 1, q, mem =>
    if q.head_node = none then some (q, mem)
    else do
      let s ← pop q mem
      clearFuel fuel s.1 s.2

/-- Embedding of `PmrQueue::clear_elements` (also run by `clear()` and the
destructor), with the element count as fuel. -/
def clear_elements (q : PmrQueue T) (mem : Mem T) : Option (PmrQueue T × Mem T) :=
  clearFuel q.element_count q mem

/-- Embedding of `PmrQueue(PmrQueue&&)`: the new queue steals head, tail and
count and copies the allocator handle; the source is nulled out.  Result:
(the constructed queue, the moved-from source). -/
def moveCtor (other : PmrQueue T) : PmrQueue T × PmrQueue T :=
  (⟨other.head_node, other.tail_node, other.node_allocator, other.element_count⟩,
   { other with head_node := none, tail_node := none, element_count := 0 })

/-- Embedding of `operator=(PmrQueue&&)` for distinct objects (the
`this != &other` branch): first clear the destination with its current
allocator, then adopt the source's head, tail, allocator handle and count;
the source is nulled out.  Result: (destination, source, memory). -/
def moveAssign (self other : PmrQueue T) (mem : Mem T) :
    Option (PmrQueue T × PmrQueue T × Mem T) := do
  let s ← clear_elements self mem
  some (⟨other.head_node, other.tail_node, other.node_allocator, other.element_count⟩,
        { other with head_node := none, tail_node := none, element_count := 0 },
        s.2)

/-- Embedding of `QueueIterator`: wraps `current_node`; null is the end
sentinel. -/
structure QueueIterator where
  current_node : Option Nat
deriving DecidableEq

/-- Embedding of `QueueIterator::operator++`: a null iterator stays null and
dereferences nothing; otherwise follow `next_node` (`none` marks the
undefined behaviour of a dangling node pointer). -/
def iterInc (mem : Mem T) (it : QueueIterator) : Option QueueIterator :=
  match it.current_node with
  | none => some ⟨none⟩
  | some a => (lookupNode mem.nodes a).map (fun n => ⟨n.next_node⟩)

/-- Decidable statement that the chain starting at pointer `h` consists
exactly of the given `(address, payload)` cells, linked in that order, and
ends with a null link. -/
def isChain [DecidableEq T] (nodes : List (Nat × QueueNode T)) :
    Option Nat → List (Nat × T) → Bool
  | none, [] => true
  | none, _ :: _ => false
  | some _, [] => false
  | some a, (b, x) :: rest =>
    a == b &&
      match lookupNode nodes a with
      | none => false
      | some n => n.data == x && isChain nodes n.next_node rest

/-- Structural invariant of one queue inside a memory, relative to the cell
list describing its chain: the chain from the head is exactly `cells`; it
has `element_count` cells; the addresses are distinct, below the
fresh-address watermark, and each is a live raw block of the queue's
allocator; and the last address (if any) is the tail pointer. -/
def QInv [DecidableEq T] (q : PmrQueue T) (mem : Mem T) (cells : List (Nat × T)) : Prop :=
  isChain mem.nodes q.head_node cells = true ∧
  cells.length = q.element_count ∧
  (cells.map Prod.fst).Nodup ∧
  q.tail_node = (cells.map Prod.fst).getLast? ∧
  (∀ a ∈ cells.map Prod.fst, a < mem.next) ∧
  (∀ a ∈ cells.map Prod.fst, (q.node_allocator, a) ∈ mem.alloc)

instance [DecidableEq T] (q : PmrQueue T) (mem : Mem T) (cells : List (Nat × T)) :
    Decidable (QInv q mem cells) := by
  unfold QInv; infer_instance

/-- Memory-level invariant: each address is live under at most one raw
block, and all live addresses are below the fresh-address watermark. -/
def MemInv (mem : Mem T) : Prop :=
  (mem.alloc.map Prod.snd).Nodup ∧ ∀ ad ∈ mem.alloc.map Prod.snd, ad < mem.next

instance (mem : Mem T) : Decidable (MemInv mem) := by
  unfold MemInv; infer_instance

/-- Run of `push` over a list of values (the failure-free path). -/
def pushAll (q : PmrQueue T) (mem : Mem T) : List T → PmrQueue T × Mem T
  | [] => (q, mem)
  | x :: xs => pushAll (push q mem x false).1 (push q mem x false).2.1 xs

/-- Observe `front`, then `pop`, until the queue is empty (with fuel),
collecting the observed values. -/
def drainFuel : Nat → PmrQueue T → Mem T → Option (List T)
  | 0, q, _ => if q.head_node = none then some [] else none
  | fuel + 1, q, mem =>
    if q.head_node = none then some []
    else do
      let x ← front q mem
      let s ← pop q mem
      let rest ← drainFuel fuel s.1 s.2
      pure (x :: rest)

theorem lookupNode_cons (a : Nat) (n : QueueNode T) (nodes : List (Nat × QueueNode T))
    (b : Nat) :
    lookupNode ((a, n) :: nodes) b = if b = a then some n else lookupNode nodes b := by
  by_cases h : b = a
  · subst h
    simp [lookupNode, List.find?_cons]
  · simp [lookupNode, List.find?_cons, beq_false_of_ne (Ne.symm h), h]

theorem lookupNode_setNext (nodes : List (Nat × QueueNode T)) (t : Nat) (nxt : Option Nat)
    (b : Nat) :
    lookupNode (setNext nodes t nxt) b =
      if b = t then (lookupNode nodes t).map (fun n => { n with next_node := nxt })
      else lookupNode nodes b := by
  induction nodes with
  | nil => by_cases h : b = t <;> simp [lookupNode, setNext, h]
  | cons p rest ih =>
    obtain ⟨k, n⟩ := p
    have hhead : setNext ((k, n) :: rest) t nxt
        = (if k = t then (k, { n with next_node := nxt }) else (k, n))
            :: setNext rest t nxt := by
      simp [setNext]
    rw [hhead]
    by_cases hkt : k = t
    · by_cases hbk : b = k <;> simp_all [lookupNode_cons, ih]
    · by_cases hbk : b = k
      · simp_all [lookupNode_cons, ih]
      · simp only [lookupNode_cons, if_neg hbk, if_neg hkt, ih]
        rw [if_neg (fun hh : t = k => hkt hh.symm)]

theorem lookupNode_erase (nodes : List (Nat × QueueNode T)) (a b : Nat) :
    lookupNode (eraseNode nodes a) b = if b = a then none else lookupNode nodes b := by
  induction nodes with
  | nil => by_cases h : b = a <;> simp [lookupNode, eraseNode, h]
  | cons p rest ih =>
    obtain ⟨k, n⟩ := p
    by_cases hka : k = a
    · have hhead : eraseNode ((k, n) :: rest) a = eraseNode rest a := by
        simp [eraseNode, List.filter_cons, hka]
      rw [hhead, ih]
      by_cases hba : b = a
      · simp [hba]
      · have hbk : ¬ b = k := by rw [hka]; exact hba
        simp [hba, lookupNode_cons, hbk]
    · have hhead : eraseNode ((k, n) :: rest) a = (k, n) :: eraseNode rest a := by
        simp [eraseNode, List.filter_cons, hka]
      rw [hhead, lookupNode_cons, lookupNode_cons, ih]
      by_cases hbk : b = k
      · have hba : ¬ b = a := by rw [hbk]; exact hka
        simp [hbk, hba, hka]
      · simp [hbk]

theorem mem_eraseP_of_pred_false {l : List α} {p : α → Bool} {x : α} (hx : x ∈ l)
    (hp : p x = false) : x ∈ l.eraseP p := by
  induction l with
  | nil => cases hx
  | cons y ys ih =>
    by_cases hy : p y
    · rw [List.eraseP_cons_of_pos hy]
      rcases List.mem_cons.1 hx with rfl | hx'
      · rw [hy] at hp; cases hp
      · exact hx'
    · rw [List.eraseP_cons_of_neg (by simpa using hy)]
      rcases List.mem_cons.1 hx with rfl | hx'
      · exact List.mem_cons_self _ _
      · exact List.mem_cons_of_mem _ (ih hx')

theorem mem_freeBlock_of_ne {alloc : List (Nat × Nat)} {al a : Nat} {p : Nat × Nat}
    (hp : p ∈ alloc) (hne : p.2 ≠ a) : p ∈ freeBlock alloc al a := by
  apply mem_eraseP_of_pred_false hp
  simp [hne]

theorem freeBlock_cons (al a al' a' : Nat) (rest : List (Nat × Nat)) :
    freeBlock ((al', a') :: rest) al a =
      if al' = al ∧ a' = a then rest else (al', a') :: freeBlock rest al a := by
  by_cases h1 : al' = al ∧ a' = a
  · simp [freeBlock, List.eraseP_cons, h1.1, h1.2]
  · rw [if_neg h1]
    have hfalse : (al' == al && a' == a) = false := by
      simpa using h1
    simp [freeBlock, List.eraseP_cons, hfalse]

theorem not_mem_freeBlock {alloc : List (Nat × Nat)} (al a : Nat)
    (hnd : (alloc.map Prod.snd).Nodup) : (al, a) ∉ freeBlock alloc al a := by
  induction alloc with
  | nil => simp [freeBlock]
  | cons q rest ih =>
    obtain ⟨al', a'⟩ := q
    rw [List.map_cons, List.nodup_cons] at hnd
    rw [freeBlock_cons]
    by_cases h1 : al' = al ∧ a' = a
    · rw [if_pos h1]
      intro hc
      apply hnd.1
      rw [h1.2]
      exact List.mem_map.2 ⟨(al, a), hc, rfl⟩
    · rw [if_neg h1]
      intro hc
      rcases List.mem_cons.1 hc with heq | hc'
      · injection heq with h2 h3
        exact h1 ⟨h2.symm, h3.symm⟩
      · exact ih hnd.2 hc'

theorem isChain_nil_iff [DecidableEq T] (nodes : List (Nat × QueueNode T)) (h : Option Nat) :
    isChain nodes h [] = true ↔ h = none := by
  cases h <;> simp [isChain]

theorem isChain_cons_iff [DecidableEq T] (nodes : List (Nat × QueueNode T)) (h : Option Nat)
    (b : Nat) (x : T) (rest : List (Nat × T)) :
    isChain nodes h ((b, x) :: rest) = true ↔
      h = some b ∧ ∃ n, lookupNode nodes b = some n ∧ n.data = x ∧
        isChain nodes n.next_node rest = true := by
  cases h with
  | none => simp [isChain]
  | some a =>
    by_cases hab : a = b
    · subst hab
      cases hl : lookupNode nodes a with
      | none => simp [isChain, hl]
      | some n => simp [isChain, hl]
    · simp [isChain, hab]

theorem isChain_none_iff [DecidableEq T] (nodes : List (Nat × QueueNode T))
    (cells : List (Nat × T)) :
    isChain nodes none cells = true ↔ cells = [] := by
  cases cells with
  | nil => simp [isChain]
  | cons c r =>
    obtain ⟨b, x⟩ := c
    simp [isChain]

theorem isChain_congr [DecidableEq T] {nodes nodes' : List (Nat × QueueNode T)}
    (cells : List (Nat × T)) (h : Option Nat)
    (H : ∀ p ∈ cells, lookupNode nodes' p.1 = lookupNode nodes p.1) :
    isChain nodes' h cells = isChain nodes h cells := by
  induction cells generalizing h with
  | nil => cases h <;> rfl
  | cons c rest ih =>
    obtain ⟨b, x⟩ := c
    cases h with
    | none => rfl
    | some a =>
      by_cases hab : a = b
      · subst hab
        simp only [isChain]
        rw [H (a, x) (List.mem_cons_self _ _)]
        cases hl : lookupNode nodes a with
        | none => rfl
        | some n =>
          have hrest := ih n.next_node (fun p hp => H p (List.mem_cons_of_mem _ hp))
          simp [hrest]
      · simp only [isChain, beq_false_of_ne hab, Bool.false_and]

theorem isChain_extend [DecidableEq T] (nodes : List (Nat × QueueNode T)) (f : Nat) (x : T)
    (t : Nat) (cells : List (Nat × T)) :
    ∀ h : Option Nat,
      isChain nodes h cells = true →
      (cells.map Prod.fst).Nodup →
      f ∉ cells.map Prod.fst →
      (cells.map Prod.fst).getLast? = some t →
      isChain (setNext ((f, ⟨x, none⟩) :: nodes) t (some f)) h (cells ++ [(f, x)]) = true := by
  induction cells with
  | nil =>
    intro h _ _ _ hlast
    simp at hlast
  | cons c rest ih =>
    obtain ⟨b, y⟩ := c
    intro h hch hnd hf hlast
    rw [isChain_cons_iff] at hch
    obtain ⟨rfl, n, hlk, hdata, hrest⟩ := hch
    rw [List.map_cons, List.nodup_cons] at hnd
    simp only [List.map_cons, List.mem_cons, not_or] at hf
    rcases rest with _ | ⟨⟨r, z⟩, rs⟩
    · have ht : t = b := by
        rw [List.map_cons] at hlast
        simpa using hlast.symm
      subst ht
      have hnx : n.next_node = none := (isChain_nil_iff _ _).1 hrest
      rw [List.cons_append, List.nil_append, isChain_cons_iff]
      refine ⟨rfl, ⟨{ n with next_node := some f }, ?_, hdata, ?_⟩⟩
      · rw [lookupNode_setNext, if_pos rfl, lookupNode_cons,
          if_neg (fun hh : t = f => hf.1 hh.symm), hlk]
        rfl
      · rw [isChain_cons_iff]
        refine ⟨rfl, ⟨⟨x, none⟩, ?_, rfl, rfl⟩⟩
        rw [lookupNode_setNext, if_neg (fun hh : f = t => hf.1 hh), lookupNode_cons,
          if_pos rfl]
    · have hlast' : (((r, z) :: rs).map Prod.fst).getLast? = some t := by
        rw [List.map_cons] at hlast
        rw [List.map_cons]
        rw [List.map_cons, List.getLast?_cons_cons] at hlast
        exact hlast
      have hbt : ¬ b = t := by
        intro hh
        apply hnd.1
        rw [hh]
        exact List.mem_of_mem_getLast? hlast'
      rw [List.cons_append, isChain_cons_iff]
      refine ⟨rfl, ⟨n, ?_, hdata, ?_⟩⟩
      · rw [lookupNode_setNext, if_neg hbt, lookupNode_cons,
          if_neg (fun hh : b = f => hf.1 hh.symm)]
        exact hlk
      · exact ih n.next_node hrest hnd.2 hf.2 hlast'

theorem push_QInv [DecidableEq T] (q : PmrQueue T) (mem : Mem T) (x : T)
    (cells : List (Nat × T)) (hq : QInv q mem cells) :
    (push q mem x false).2.2 = false ∧
    (push q mem x false).1.node_allocator = q.node_allocator ∧
    (push q mem x false).2.1.next = mem.next + 1 ∧
    QInv (push q mem x false).1 (push q mem x false).2.1 (cells ++ [(mem.next, x)]) := by
  obtain ⟨hch, hlen, hnd, htl, hb, ha⟩ := hq
  cases htq : q.tail_node with
  | none =>
    have hcells : cells = [] := by
      rw [htq] at htl
      have hmapnil : cells.map Prod.fst = [] := List.getLast?_eq_none_iff.1 htl.symm
      exact List.map_eq_nil_iff.1 hmapnil
    subst hcells
    have hpush : push q mem x false =
        ({ q with head_node := some mem.next, tail_node := some mem.next,
                  element_count := q.element_count + 1 },
         { mem with nodes := (mem.next, ⟨x, none⟩) :: mem.nodes,
                    alloc := (q.node_allocator, mem.next) :: mem.alloc,
                    next := mem.next + 1 }, false) := by
      simp [push, htq]
    rw [hpush]
    refine ⟨rfl, rfl, rfl, ?_, ?_, ?_, ?_, ?_, ?_⟩
    · rw [List.nil_append, isChain_cons_iff]
      exact ⟨rfl, ⟨⟨x, none⟩, by rw [lookupNode_cons, if_pos rfl], rfl, rfl⟩⟩
    · simpa using hlen.symm
    · simp
    · simp
    · intro a hmem
      simp only [List.nil_append, List.map_cons, List.map_nil, List.mem_singleton] at hmem
      simp [hmem]
    · intro a hmem
      simp only [List.nil_append, List.map_cons, List.map_nil, List.mem_singleton] at hmem
      rw [hmem]
      exact List.mem_cons_self _ _
  | some t =>
    have htlast : (cells.map Prod.fst).getLast? = some t := by rw [← htl, htq]
    have hfmem : mem.next ∉ cells.map Prod.fst := fun hmem => absurd (hb _ hmem) (lt_irrefl _)
    have hpush : push q mem x false =
        ({ q with tail_node := some mem.next, element_count := q.element_count + 1 },
         { mem with nodes := setNext ((mem.next, ⟨x, none⟩) :: mem.nodes) t (some mem.next),
                    alloc := (q.node_allocator, mem.next) :: mem.alloc,
                    next := mem.next + 1 }, false) := by
      simp [push, htq]
    rw [hpush]
    refine ⟨rfl, rfl, rfl, ?_, ?_, ?_, ?_, ?_, ?_⟩
    · exact isChain_extend mem.nodes mem.next x t cells q.head_node hch hnd hfmem htlast
    · simp [hlen]
    · rw [List.map_append, List.nodup_append]
      refine ⟨hnd, List.nodup_singleton _, ?_⟩
      intro a hA
      simp only [List.map_cons, List.map_nil, List.mem_singleton]
      intro hEq
      exact hfmem (hEq ▸ hA)
    · rw [List.map_append]
      simp [List.getLast?_concat]
    · intro a hmem
      rw [List.map_append] at hmem
      rcases List.mem_append.1 hmem with hA | hA
      · exact Nat.lt_succ_of_lt (hb a hA)
      · simp only [List.map_cons, List.map_nil, List.mem_singleton] at hA
        simp [hA]
    · intro a hmem
      rw [List.map_append] at hmem
      rcases List.mem_append.1 hmem with hA | hA
      · exact List.mem_cons_of_mem _ (ha a hA)
      · simp only [List.map_cons, List.map_nil, List.mem_singleton] at hA
        rw [hA]
        exact List.mem_cons_self _ _

theorem pop_QInv [DecidableEq T] (q : PmrQueue T) (mem : Mem T) (h : Nat) (x : T)
    (cells : List (Nat × T)) (hq : QInv q mem ((h, x) :: cells)) :
    ∃ n, lookupNode mem.nodes h = some n ∧ n.data = x ∧
      pop q mem = some
        ({ q with head_node := n.next_node,
                  tail_node := if n.next_node = none then none else q.tail_node,
                  element_count := q.element_count - 1 },
         { mem with nodes := eraseNode mem.nodes h,
                    alloc := freeBlock mem.alloc q.node_allocator h }) ∧
      QInv { q with head_node := n.next_node,
                    tail_node := if n.next_node = none then none else q.tail_node,
                    element_count := q.element_count - 1 }
        { mem with nodes := eraseNode mem.nodes h,
                   alloc := freeBlock mem.alloc q.node_allocator h } cells := by
  obtain ⟨hch, hlen, hnd, htl, hb, ha⟩ := hq
  rw [isChain_cons_iff] at hch
  obtain ⟨hhead, n, hlk, hdata, hrest⟩ := hch
  rw [List.map_cons, List.nodup_cons] at hnd
  refine ⟨n, hlk, hdata, ?_, ?_, ?_, hnd.2, ?_, ?_, ?_⟩
  · simp [pop, hhead, hlk]
  · have hcong := @isChain_congr T _ mem.nodes (eraseNode mem.nodes h)
      cells n.next_node (fun p hp => by
        rw [lookupNode_erase, if_neg]
        intro hph
        exact hnd.1 (hph ▸ List.mem_map.2 ⟨p, hp, rfl⟩))
    show isChain (eraseNode mem.nodes h) n.next_node cells = true
    rw [hcong]
    exact hrest
  · rw [List.length_cons] at hlen
    show cells.length = q.element_count - 1
    omega
  · rcases cells with _ | ⟨⟨c, w⟩, cs⟩
    · have hnx : n.next_node = none := (isChain_nil_iff _ _).1 hrest
      simp [hnx]
    · have hnx : n.next_node = some c := by
        rw [isChain_cons_iff] at hrest
        exact hrest.1
      simp only [hnx]
      rw [if_neg (by simp)]
      rw [List.map_cons, List.map_cons, List.getLast?_cons_cons] at htl
      rw [List.map_cons]
      exact htl
  · intro a hA
    exact hb a (by rw [List.map_cons]; exact List.mem_cons_of_mem _ hA)
  · intro a hA
    apply mem_freeBlock_of_ne (ha a (by rw [List.map_cons]; exact List.mem_cons_of_mem _ hA))
    intro hAh
    exact hnd.1 (hAh ▸ hA)

theorem pop_pres_other [DecidableEq T] (q2 : PmrQueue T) (mem : Mem T)
    (cells2 : List (Nat × T)) (al h : Nat) (h2 : QInv q2 mem cells2)
    (hd : h ∉ cells2.map Prod.fst) :
    QInv q2 { mem with nodes := eraseNode mem.nodes h,
                       alloc := freeBlock mem.alloc al h } cells2 := by
  obtain ⟨hch, hlen, hnd, htl, hb, ha⟩ := h2
  refine ⟨?_, hlen, hnd, htl, hb, ?_⟩
  · have hcong := @isChain_congr T _ mem.nodes (eraseNode mem.nodes h)
      cells2 q2.head_node (fun p hp => by
        rw [lookupNode_erase, if_neg]
        intro hph
        exact hd (hph ▸ List.mem_map.2 ⟨p, hp, rfl⟩))
    show isChain (eraseNode mem.nodes h) q2.head_node cells2 = true
    rw [hcong]
    exact hch
  · intro a hA
    apply mem_freeBlock_of_ne (ha a hA)
    intro hAh
    exact hd (hAh ▸ hA)

theorem push_fail_eq (q : PmrQueue T) (mem : Mem T) (x : T) :
    push q mem x true = (q, { mem with next := mem.next + 1 }, true) := by
  have h : freeBlock ((q.node_allocator, mem.next) :: mem.alloc) q.node_allocator mem.next
      = mem.alloc := by
    simp [freeBlock]
  simp [push, h]

theorem push_MemInv (q : PmrQueue T) (mem : Mem T) (x : T) (cf : Bool) (hm : MemInv mem) :
    MemInv (push q mem x cf).2.1 := by
  obtain ⟨hnd, hb⟩ := hm
  cases cf with
  | true =>
    rw [push_fail_eq]
    exact ⟨hnd, fun ad had => Nat.lt_succ_of_lt (hb ad had)⟩
  | false =>
    have h1 : (push q mem x false).2.1.alloc = (q.node_allocator, mem.next) :: mem.alloc := by
      cases htq : q.tail_node <;> simp [push, htq]
    have h2 : (push q mem x false).2.1.next = mem.next + 1 := by
      cases htq : q.tail_node <;> simp [push, htq]
    refine ⟨?_, ?_⟩
    · rw [h1, List.map_cons, List.nodup_cons]
      exact ⟨fun hmem => absurd (hb _ hmem) (lt_irrefl _), hnd⟩
    · intro ad had
      rw [h1, List.map_cons, List.mem_cons] at had
      rw [h2]
      rcases had with rfl | had
      · exact Nat.lt_succ_self _
      · exact Nat.lt_succ_of_lt (hb ad had)

theorem freeBlock_MemInv (mem : Mem T) (N : List (Nat × QueueNode T)) (al a : Nat)
    (hm : MemInv mem) :
    MemInv { mem with nodes := N, alloc := freeBlock mem.alloc al a } := by
  obtain ⟨hnd, hb⟩ := hm
  have hsub : List.Sublist (freeBlock mem.alloc al a) mem.alloc := List.eraseP_sublist _
  refine ⟨List.Nodup.sublist (hsub.map Prod.snd) hnd, ?_⟩
  intro ad had
  rw [List.mem_map] at had
  obtain ⟨p, hp, rfl⟩ := had
  exact hb p.2 (List.mem_map.2 ⟨p, hsub.subset hp, rfl⟩)

theorem clearFuel_QInv [DecidableEq T] (cells : List (Nat × T)) :
    ∀ (q : PmrQueue T) (mem : Mem T) (q2 : PmrQueue T) (cells2 : List (Nat × T)),
      QInv q mem cells → QInv q2 mem cells2 → MemInv mem →
      (∀ a ∈ cells.map Prod.fst, a ∉ cells2.map Prod.fst) →
      ∃ mem' : Mem T,
        clearFuel cells.length q mem
          = some (⟨none, none, q.node_allocator, 0⟩, mem') ∧
        QInv (⟨none, none, q.node_allocator, 0⟩ : PmrQueue T) mem' [] ∧
        QInv q2 mem' cells2 ∧
        MemInv mem' ∧
        List.Sublist mem'.alloc mem.alloc ∧
        mem'.next = mem.next ∧
        ∀ a ∈ cells.map Prod.fst, (q.node_allocator, a) ∉ mem'.alloc := by
  induction cells with
  | nil =>
    intro q mem q2 cells2 hq h2 hm _
    have hhead : q.head_node = none := (isChain_nil_iff _ _).1 hq.1
    have hq' : q = ⟨none, none, q.node_allocator, 0⟩ := by
      obtain ⟨hch, hlen, hnd, htl, hb, ha⟩ := hq
      cases q
      simp_all
    refine ⟨mem, ?_, ?_, h2, hm, List.Sublist.refl _, rfl, by simp⟩
    · have hstep : clearFuel 0 q mem = some (q, mem) := by simp [clearFuel, hhead]
      rw [List.length_nil, hstep, hq']
    · exact ⟨rfl, rfl, List.nodup_nil, rfl, by simp, by simp⟩
  | cons c cells ih =>
    obtain ⟨h, x⟩ := c
    intro q mem q2 cells2 hq h2 hm hsep
    obtain ⟨n, hlk, hdata, hpop, hqinv'⟩ := pop_QInv q mem h x cells hq
    have hhead := ((isChain_cons_iff _ _ _ _ _).1 hq.1).1
    have hd2 : h ∉ cells2.map Prod.fst :=
      hsep h (by rw [List.map_cons]; exact List.mem_cons_self _ _)
    have h2' := pop_pres_other q2 mem cells2 q.node_allocator h h2 hd2
    have hm' := freeBlock_MemInv mem (eraseNode mem.nodes h) q.node_allocator h hm
    have hsep' : ∀ a ∈ cells.map Prod.fst, a ∉ cells2.map Prod.fst :=
      fun a hA => hsep a (by rw [List.map_cons]; exact List.mem_cons_of_mem _ hA)
    obtain ⟨mem', hrun, hempty, h2'', hm'', hsub, hnext, hnone⟩ :=
      ih _ _ q2 cells2 hqinv' h2' hm' hsep'
    refine ⟨mem', ?_, hempty, h2'', hm'', ?_, ?_, ?_⟩
    · show clearFuel ((h, x) :: cells).length q mem = _
      simp only [List.length_cons, clearFuel, hhead, hpop, Option.some_bind]
      exact hrun
    · exact hsub.trans (List.eraseP_sublist _)
    · exact hnext
    · intro a hA
      rw [List.map_cons, List.mem_cons] at hA
      rcases hA with rfl | hA
      · intro hc
        exact not_mem_freeBlock q.node_allocator a hm.1 (hsub.subset hc)
      · exact hnone a hA

theorem drain_QInv [DecidableEq T] (cells : List (Nat × T)) :
    ∀ (q : PmrQueue T) (mem : Mem T), QInv q mem cells →
      drainFuel cells.length q mem = some (cells.map Prod.snd) := by
  induction cells with
  | nil =>
    intro q mem hq
    have hhead : q.head_node = none := (isChain_nil_iff _ _).1 hq.1
    simp [drainFuel, hhead]
  | cons c cells ih =>
    obtain ⟨h, x⟩ := c
    intro q mem hq
    obtain ⟨n, hlk, hdata, hpop, hqinv'⟩ := pop_QInv q mem h x cells hq
    have hhead := ((isChain_cons_iff _ _ _ _ _).1 hq.1).1
    have hfront : front q mem = some x := by
      rw [front, hhead]
      simp [hlk, hdata]
    have hrec := ih _ _ hqinv'
    rw [List.length_cons]
    simp [drainFuel, hhead, hfront, hpop, hrec]

theorem pushAll_QInv [DecidableEq T] (xs : List T) :
    ∀ (q : PmrQueue T) (mem : Mem T) (cells : List (Nat × T)), QInv q mem cells →
      ∃ cells', QInv (pushAll q mem xs).1 (pushAll q mem xs).2 cells' ∧
        cells'.map Prod.snd = cells.map Prod.snd ++ xs := by
  induction xs with
  | nil =>
    intro q mem cells hq
    exact ⟨cells, hq, by simp⟩
  | cons x xs ih =>
    intro q mem cells hq
    obtain ⟨-, -, -, hq'⟩ := push_QInv q mem x cells hq
    obtain ⟨cells', hc1, hc2⟩ := ih _ _ _ hq'
    refine ⟨cells', hc1, ?_⟩
    rw [hc2]
    simp

theorem init_QInv [DecidableEq T] (al : Nat) : QInv (initQueue T al) (initMem T) [] :=
  ⟨rfl, rfl, List.nodup_nil, rfl, by simp, by simp⟩

theorem init_MemInv (T : Type) : MemInv (initMem T) :=
  ⟨List.nodup_nil, by simp [initMem]⟩

theorem map_address_eraseP (l : List Block) (p : Nat) :
    (l.eraseP (fun b => b.address == p)).map Block.address
      = (l.map Block.address).erase p := by
  induction l with
  | nil => rfl
  | cons b l ih =>
    by_cases hb : b.address = p
    · rw [List.eraseP_cons_of_pos (by simp [hb]), List.map_cons, hb, List.erase_cons_head]
    · rw [List.eraseP_cons_of_neg (by simp [hb]), List.map_cons, List.map_cons, ih,
        List.erase_cons_tail (by simp [hb])]

/-- The tracking allocator's record list, together with the ledger of
outstanding addresses, is preserved by every call of a trace. -/
theorem runAlloc_ledger (ops : List AllocOp) :
    ∀ (s : AllocState) (outs : List Nat), AInv s outs →
      AInv (runAlloc s ops) (ledger s.upNext outs ops) := by
  induction ops with
  | nil => intro s outs h; exact h
  | cons op ops ih =>
    intro s outs h
    obtain ⟨h1, h2, h3⟩ := h
    cases op with
    | alloc b rf =>
      simp only [runAlloc, ledger]
      cases rf with
      | true =>
        have hs : (do_allocate s b true).2.1
            = { s with upstream := upstreamFree (⟨s.upNext, b⟩ :: s.upstream) s.upNext,
                       upNext := s.upNext + 1 } := by
          simp [do_allocate]
        rw [hs] at *
        have := ih { s with upstream := upstreamFree (⟨s.upNext, b⟩ :: s.upstream) s.upNext,
                            upNext := s.upNext + 1 } outs
            ⟨h1, h2, fun a ha => Nat.lt_succ_of_lt (h3 a ha)⟩
        simpa using this
      | false =>
        have hs : (do_allocate s b false).2.1
            = { s with upstream := ⟨s.upNext, b⟩ :: s.upstream,
                       active_blocks := s.active_blocks ++ [⟨s.upNext, b⟩],
                       upNext := s.upNext + 1 } := by
          simp [do_allocate]
        rw [hs]
        have hinv : AInv { s with upstream := ⟨s.upNext, b⟩ :: s.upstream,
                                  active_blocks := s.active_blocks ++ [⟨s.upNext, b⟩],
                                  upNext := s.upNext + 1 } (outs ++ [s.upNext]) := by
          refine ⟨by simp [h1], ?_, ?_⟩
          · rw [List.nodup_append]
            refine ⟨h2, List.nodup_singleton _, ?_⟩
            intro a ha
            simp only [List.mem_singleton]
            intro hc
            exact absurd (h3 a ha) (by simp [hc])
          · intro a ha
            rcases List.mem_append.1 ha with ha' | ha'
            · exact Nat.lt_succ_of_lt (h3 a ha')
            · simp only [List.mem_singleton] at ha'
              simp [ha']
        have := ih _ _ hinv
        simpa using this
    | dealloc p b =>
      simp only [runAlloc, ledger]
      by_cases hf : (s.active_blocks.find? (fun bl => bl.address == p)).isSome
      · have hs : do_deallocate s p b
            = { s with upstream := upstreamFree s.upstream p,
                       active_blocks := s.active_blocks.eraseP (fun bl => bl.address == p) } := by
          simp [do_deallocate, hf]
        rw [hs]
        have hinv : AInv { s with upstream := upstreamFree s.upstream p,
                                  active_blocks :=
                                    s.active_blocks.eraseP (fun bl => bl.address == p) }
            (outs.erase p) := by
          refine ⟨?_, h2.erase p, ?_⟩
          · simp [map_address_eraseP, h1]
          · intro a ha
            exact h3 a (List.mem_of_mem_erase ha)
        have := ih _ _ hinv
        simpa using this
      · have hs : do_deallocate s p b = s := by
          simp [do_deallocate, hf]
        have hp : p ∉ outs := by
          intro hc
          apply hf
          rw [List.find?_isSome]
          rw [← h1] at hc
          obtain ⟨bl, hbl, rfl⟩ := List.mem_map.1 hc
          exact ⟨bl, hbl, by simp⟩
        rw [hs, List.erase_of_not_mem hp]
        exact ih s outs ⟨h1, h2, h3⟩

/-- C9: across every trace of allocate/deallocate calls starting from a fresh
tracking allocator, the record collection holds exactly the addresses that
were returned by a successful allocate and not yet explicitly deallocated,
each exactly once. -/
theorem allocator_records_outstanding_exactly_once (ops : List AllocOp) :
    (runAlloc initAlloc ops).active_blocks.map Block.address = ledger 0 [] ops ∧
    (ledger 0 [] ops).Nodup := by
  have h := runAlloc_ledger ops initAlloc [] ⟨rfl, List.nodup_nil, by simp⟩
  exact ⟨h.1, h.2.1⟩

/-- C5: when recording the freshly obtained block fails inside
`do_allocate`, the block is returned to the upstream allocator (the parent's
outstanding list is exactly what it was), the failure propagates, no address
is returned, and the record collection is unchanged: the whole visible
effect is the consumed fresh address. -/
theorem allocate_record_failure_releases_block (s : AllocState) (bytes : Nat) :
    do_allocate s bytes true = (none, { s with upNext := s.upNext + 1 }, true) := by
  have h : upstreamFree (⟨s.upNext, bytes⟩ :: s.upstream) s.upNext = s.upstream := by
    simp [upstreamFree]
  simp [do_allocate, h]

/-- C6: `do_deallocate` on a recorded address forwards the free upstream and
removes exactly that record (the recorded address list loses exactly one
occurrence of the address); on an unrecorded address it is a silent no-op
that changes nothing and forwards nothing upstream. -/
theorem deallocate_found_or_silent_noop (s : AllocState) (ptr bytes : Nat) :
    (ptr ∈ s.active_blocks.map Block.address →
      do_deallocate s ptr bytes =
        { s with upstream := upstreamFree s.upstream ptr,
                 active_blocks := s.active_blocks.eraseP (fun b => b.address == ptr) } ∧
      (do_deallocate s ptr bytes).active_blocks.map Block.address
        = (s.active_blocks.map Block.address).erase ptr) ∧
    (ptr ∉ s.active_blocks.map Block.address →
      do_deallocate s ptr bytes = s) := by
  constructor
  · intro h
    have hf : (s.active_blocks.find? (fun b => b.address == ptr)).isSome := by
      rw [List.find?_isSome]
      obtain ⟨b, hb, rfl⟩ := List.mem_map.1 h
      exact ⟨b, hb, by simp⟩
    constructor
    · simp [do_deallocate, hf]
    · simp [do_deallocate, hf, map_address_eraseP]
  · intro h
    have hf : s.active_blocks.find? (fun b => b.address == ptr) = none := by
      rw [List.find?_eq_none]
      intro b hb
      simp only [beq_iff_eq]
      intro hc
      exact h (List.mem_map.2 ⟨b, hb, hc⟩)
    simp [do_deallocate, hf]

theorem deallocate_found_or_silent_noop_witness :
    do_deallocate (⟨[⟨5, 16⟩], [⟨5, 16⟩], 6⟩ : AllocState) 5 16
      = { (⟨[⟨5, 16⟩], [⟨5, 16⟩], 6⟩ : AllocState) with
          upstream := upstreamFree [⟨5, 16⟩] 5,
          active_blocks := List.eraseP (fun b => b.address == 5) [⟨5, 16⟩] } ∧
    (do_deallocate (⟨[⟨5, 16⟩], [⟨5, 16⟩], 6⟩ : AllocState) 5 16).active_blocks.map
        Block.address = (([⟨5, 16⟩] : List Block).map Block.address).erase 5 :=
  (deallocate_found_or_silent_noop ⟨[⟨5, 16⟩], [⟨5, 16⟩], 6⟩ 5 16).1 (by decide)

/-- C3: a push whose payload construction fails returns the just-allocated
node storage to the allocator, propagates the failure, and leaves the queue
(head, tail, count, allocator handle) and the node memory exactly as they
were; only the fresh-address counter has moved. -/
theorem push_failure_no_visible_effect (q : PmrQueue T) (mem : Mem T) (x : T) :
    push q mem x true = (q, { mem with next := mem.next + 1 }, true) := by
  have h : freeBlock ((q.node_allocator, mem.next) :: mem.alloc) q.node_allocator mem.next
      = mem.alloc := by
    simp [freeBlock]
  simp [push, h]

/-- C10: incrementing the end-sentinel iterator is safe and total: it stays
the end sentinel and dereferences nothing; incrementing an iterator over a
constructed node advances to that node's successor. -/
theorem end_iterator_increment_safe (mem : Mem T) :
    iterInc mem ⟨none⟩ = some ⟨none⟩ ∧
    ∀ (a : Nat) (n : QueueNode T), lookupNode mem.nodes a = some n →
      iterInc mem ⟨some a⟩ = some ⟨n.next_node⟩ := by
  refine ⟨rfl, ?_⟩
  intro a n h
  simp [iterInc, h]

/-- C1: pushing any sequence of values into an initially empty queue and then
repeatedly observing `front` and popping yields exactly that sequence, in the
original insertion order (FIFO law). -/
theorem fifo_law [DecidableEq T] (al : Nat) (xs : List T) :
    drainFuel (pushAll (initQueue T al) (initMem T) xs).1.element_count
      (pushAll (initQueue T al) (initMem T) xs).1
      (pushAll (initQueue T al) (initMem T) xs).2 = some xs := by
  obtain ⟨cells', hq, hmap⟩ := pushAll_QInv xs (initQueue T al) (initMem T) [] (init_QInv al)
  have hlen : cells'.length = (pushAll (initQueue T al) (initMem T) xs).1.element_count :=
    hq.2.1
  have hdrain := drain_QInv cells' _ _ hq
  rw [hlen] at hdrain
  simp only [List.map_nil, List.nil_append] at hmap
  rw [hdrain, hmap]

/-- C2: every queue operation (fresh construction, successful push, failed
push, pop, clear — which also runs in the destructor —, move construction and
move assignment) preserves the structural invariant `QInv` (head/tail/count
consistent with a duplicate-free, cycle-free chain that ends at the tail),
and under the invariant `empty()`, `size() == 0`, head absence and tail
absence are all equivalent. -/
theorem queue_invariant_preservation [DecidableEq T] (q q2 : PmrQueue T) (mem : Mem T)
    (cells cells2 : List (Nat × T)) (x : T) (al : Nat)
    (hq : QInv q mem cells) (hq2 : QInv q2 mem cells2) (hm : MemInv mem)
    (hsep : ∀ a ∈ cells.map Prod.fst, a ∉ cells2.map Prod.fst) :
    QInv (initQueue T al) (initMem T) [] ∧
    QInv (push q mem x false).1 (push q mem x false).2.1 (cells ++ [(mem.next, x)]) ∧
    QInv (push q mem x true).1 (push q mem x true).2.1 cells ∧
    (∃ s cells', pop q mem = some s ∧ QInv s.1 s.2 cells') ∧
    (∃ s, clear_elements q mem = some s ∧ QInv s.1 s.2 [] ∧ QInv q2 s.2 cells2) ∧
    QInv (moveCtor q).1 mem cells ∧
    QInv (moveCtor q).2 mem [] ∧
    (∃ s, moveAssign q q2 mem = some s ∧ QInv s.1 s.2.2 cells2 ∧ QInv s.2.1 s.2.2 []) ∧
    ((empty q = true ↔ size q = 0) ∧ (empty q = true ↔ q.head_node = none) ∧
      (empty q = true ↔ q.tail_node = none)) := by
  obtain ⟨mem', hrun, hempty, h2'', hm'', hsub, hnext, hnone⟩ :=
    clearFuel_QInv cells q mem q2 cells2 hq hq2 hm hsep
  have hclear : clear_elements q mem = some (⟨none, none, q.node_allocator, 0⟩, mem') := by
    show clearFuel q.element_count q mem = _
    rw [← hq.2.1]
    exact hrun
  have hcellsnil : q.head_node = none ↔ cells = [] := by
    constructor
    · intro hh
      have hch := hq.1
      rw [hh, isChain_none_iff] at hch
      exact hch
    · intro hh
      have hch := hq.1
      rw [hh] at hch
      exact (isChain_nil_iff _ _).1 hch
  refine ⟨init_QInv al, (push_QInv q mem x cells hq).2.2.2, ?_, ?_, ?_, ?_, ?_, ?_, ?_⟩
  · simp only [push_fail_eq]
    obtain ⟨h1, h2, h3, h4, h5, h6⟩ := hq
    exact ⟨h1, h2, h3, h4, fun a ha => Nat.lt_succ_of_lt (h5 a ha), h6⟩
  · rcases hcc : cells with _ | ⟨⟨hh, xx⟩, cs⟩
    · subst hcc
      have hhead : q.head_node = none := hcellsnil.2 rfl
      exact ⟨(q, mem), [], by simp [pop, hhead], hq⟩
    · subst hcc
      obtain ⟨n, _, _, hpop, hqinv'⟩ := pop_QInv q mem hh xx cs hq
      exact ⟨_, cs, hpop, hqinv'⟩
  · exact ⟨(⟨none, none, q.node_allocator, 0⟩, mem'), hclear, hempty, h2''⟩
  · exact hq
  · exact ⟨rfl, rfl, List.nodup_nil, rfl, by simp, by simp⟩
  · refine ⟨(⟨q2.head_node, q2.tail_node, q2.node_allocator, q2.element_count⟩,
      { q2 with head_node := none, tail_node := none, element_count := 0 }, mem'),
      ?_, h2'', ?_⟩
    · simp [moveAssign, hclear]
    · exact ⟨rfl, rfl, List.nodup_nil, rfl, by simp, by simp⟩
  · have hsz : size q = q.element_count := rfl
    have hcount : q.element_count = 0 ↔ cells = [] := by
      rw [← hq.2.1]
      simp
    have htails : q.tail_node = none ↔ cells = [] := by
      rw [hq.2.2.2.1]
      rcases cells with _ | ⟨c, cs⟩
      · simp
      · simp [List.getLast?_eq_none_iff]
    have hemp : empty q = true ↔ q.head_node = none := by
      simp [empty]
    refine ⟨?_, hemp, ?_⟩
    · rw [hemp, hsz, hcount, hcellsnil]
    · rw [hemp, htails, hcellsnil]

theorem queue_invariant_preservation_witness :
    QInv (⟨some 0, some 0, 7, 1⟩ : PmrQueue Nat) ⟨[(0, ⟨42, none⟩)], [(7, 0)], 1⟩ [(0, 42)] ∧
    (∃ s cells', pop (⟨some 0, some 0, 7, 1⟩ : PmrQueue Nat)
        ⟨[(0, ⟨42, none⟩)], [(7, 0)], 1⟩ = some s ∧ QInv s.1 s.2 cells') :=
  ⟨by decide,
   (queue_invariant_preservation (⟨some 0, some 0, 7, 1⟩ : PmrQueue Nat) ⟨none, none, 7, 0⟩
      ⟨[(0, ⟨42, none⟩)], [(7, 0)], 1⟩ [(0, 42)] [] 5 7
      (by decide) (by decide) (by decide) (by decide)).2.2.2.1⟩

/-- C4: `pop` on an empty queue is a total no-op (it cannot fail and changes
nothing); on a non-empty queue it detaches the head node, clears the tail
exactly when no successor exists, destroys the head payload, releases its
block to the queue's allocator and decrements the count, preserving the
invariant. -/
theorem pop_empty_noop_and_nonempty [DecidableEq T] (q : PmrQueue T) (mem : Mem T)
    (h : Nat) (x : T) (cells : List (Nat × T)) :
    (q.head_node = none → pop q mem = some (q, mem)) ∧
    (QInv q mem ((h, x) :: cells) → MemInv mem →
      ∃ n q' mem', lookupNode mem.nodes h = some n ∧ n.data = x ∧
        pop q mem = some (q', mem') ∧
        q'.head_node = n.next_node ∧
        (n.next_node = none → q'.tail_node = none) ∧
        (n.next_node ≠ none → q'.tail_node = q.tail_node) ∧
        q'.element_count = q.element_count - 1 ∧
        q'.node_allocator = q.node_allocator ∧
        lookupNode mem'.nodes h = none ∧
        (q.node_allocator, h) ∉ mem'.alloc ∧
        QInv q' mem' cells) := by
  constructor
  · intro hh
    simp [pop, hh]
  · intro hq hm
    obtain ⟨n, hlk, hdata, hpop, hqinv'⟩ := pop_QInv q mem h x cells hq
    refine ⟨n, _, _, hlk, hdata, hpop, rfl, ?_, ?_, rfl, rfl, ?_, ?_, hqinv'⟩
    · intro hnx
      show (if n.next_node = none then none else q.tail_node) = none
      simp [hnx]
    · intro hnx
      show (if n.next_node = none then none else q.tail_node) = q.tail_node
      simp [hnx]
    · show lookupNode (eraseNode mem.nodes h) h = none
      rw [lookupNode_erase, if_pos rfl]
    · exact not_mem_freeBlock q.node_allocator h hm.1

theorem pop_empty_noop_and_nonempty_witness :
    pop (initQueue Nat 7) (initMem Nat) = some (initQueue Nat 7, initMem Nat) ∧
    (∃ n q' mem', lookupNode [(0, (⟨42, none⟩ : QueueNode Nat))] 0 = some n ∧ n.data = 42 ∧
      pop (⟨some 0, some 0, 7, 1⟩ : PmrQueue Nat) ⟨[(0, ⟨42, none⟩)], [(7, 0)], 1⟩
        = some (q', mem') ∧
      q'.head_node = n.next_node ∧
      (n.next_node = none → q'.tail_node = none) ∧
      (n.next_node ≠ none → q'.tail_node = some 0) ∧
      q'.element_count = 0 ∧
      q'.node_allocator = 7 ∧
      lookupNode mem'.nodes 0 = none ∧
      (7, 0) ∉ mem'.alloc ∧
      QInv q' mem' []) :=
  ⟨(pop_empty_noop_and_nonempty (initQueue Nat 7) (initMem Nat) 0 0 []).1 rfl,
   (pop_empty_noop_and_nonempty (⟨some 0, some 0, 7, 1⟩ : PmrQueue Nat)
      ⟨[(0, ⟨42, none⟩)], [(7, 0)], 1⟩ 0 42 []).2 (by decide) (by decide)⟩

/-- C7: moving queue A into queue B leaves A in the empty state (null head
and tail, count 0) while B holds exactly A's prior cells in the same order;
move assignment first drains the destination's own content — releasing every
one of its blocks from its current allocator — before adopting the source's
chain and allocator handle. -/
theorem move_transfers_content [DecidableEq T] (self other : PmrQueue T) (mem : Mem T)
    (cellsS cellsO : List (Nat × T))
    (hs : QInv self mem cellsS) (ho : QInv other mem cellsO) (hm : MemInv mem)
    (hsep : ∀ a ∈ cellsS.map Prod.fst, a ∉ cellsO.map Prod.fst) :
    ((moveCtor other).2.head_node = none ∧ (moveCtor other).2.tail_node = none ∧
      (moveCtor other).2.element_count = 0 ∧
      QInv (moveCtor other).1 mem cellsO ∧ QInv (moveCtor other).2 mem []) ∧
    (∃ mem', moveAssign self other mem
        = some (⟨other.head_node, other.tail_node, other.node_allocator,
                 other.element_count⟩,
                { other with head_node := none, tail_node := none, element_count := 0 },
                mem') ∧
      QInv (⟨other.head_node, other.tail_node, other.node_allocator,
             other.element_count⟩ : PmrQueue T) mem' cellsO ∧
      QInv { other with head_node := none, tail_node := none, element_count := 0 } mem' [] ∧
      ∀ a ∈ cellsS.map Prod.fst, (self.node_allocator, a) ∉ mem'.alloc) := by
  obtain ⟨mem', hrun, hempty, ho'', hm'', hsub, hnext, hnone⟩ :=
    clearFuel_QInv cellsS self mem other cellsO hs ho hm hsep
  have hclear : clear_elements self mem
      = some (⟨none, none, self.node_allocator, 0⟩, mem') := by
    show clearFuel self.element_count self mem = _
    rw [← hs.2.1]
    exact hrun
  refine ⟨⟨rfl, rfl, rfl, ho, ?_⟩, mem', ?_, ho'', ?_, hnone⟩
  · exact ⟨rfl, rfl, List.nodup_nil, rfl, by simp, by simp⟩
  · simp [moveAssign, hclear]
  · exact ⟨rfl, rfl, List.nodup_nil, rfl, by simp, by simp⟩

theorem move_transfers_content_witness :
    (moveCtor (⟨some 1, some 1, 9, 1⟩ : PmrQueue Nat)).2.head_node = none ∧
    (moveCtor (⟨some 1, some 1, 9, 1⟩ : PmrQueue Nat)).2.tail_node = none ∧
    (moveCtor (⟨some 1, some 1, 9, 1⟩ : PmrQueue Nat)).2.element_count = 0 ∧
    QInv (moveCtor (⟨some 1, some 1, 9, 1⟩ : PmrQueue Nat)).1
      ⟨[(1, ⟨5, none⟩), (0, ⟨4, none⟩)], [(9, 1), (7, 0)], 2⟩ [(1, 5)] ∧
    QInv (moveCtor (⟨some 1, some 1, 9, 1⟩ : PmrQueue Nat)).2
      ⟨[(1, ⟨5, none⟩), (0, ⟨4, none⟩)], [(9, 1), (7, 0)], 2⟩ [] :=
  (move_transfers_content (⟨some 0, some 0, 7, 1⟩ : PmrQueue Nat) ⟨some 1, some 1, 9, 1⟩
    ⟨[(1, ⟨5, none⟩), (0, ⟨4, none⟩)], [(9, 1), (7, 0)], 2⟩ [(0, 4)] [(1, 5)]
    (by decide) (by decide) (by decide) (by decide)).1

/-- C8: on a non-empty queue, `front()` — and the spec's `back()`, modelled
from the spec since it is absent from the source — returns the head node's
payload; the non-emptiness precondition is the caller's obligation (on an
empty queue both read a null pointer, modelled as `none`). -/
theorem front_back_head_payload [DecidableEq T] (q : PmrQueue T) (mem : Mem T) (h : Nat)
    (x : T) (cells : List (Nat × T)) (hq : QInv q mem ((h, x) :: cells)) :
    front q mem = some x ∧ back q mem = some x := by
  obtain ⟨hhead, n, hlk, hdata, -⟩ := (isChain_cons_iff _ _ _ _ _).1 hq.1
  constructor
  · simp [front, hhead, hlk, hdata]
  · simp [back, hhead, hlk, hdata]

theorem front_back_head_payload_witness :
    front (⟨some 0, some 0, 7, 1⟩ : PmrQueue Nat) ⟨[(0, ⟨42, none⟩)], [(7, 0)], 1⟩
      = some 42 ∧
    back (⟨some 0, some 0, 7, 1⟩ : PmrQueue Nat) ⟨[(0, ⟨42, none⟩)], [(7, 0)], 1⟩
      = some 42 :=
  front_back_head_payload ⟨some 0, some 0, 7, 1⟩ ⟨[(0, ⟨42, none⟩)], [(7, 0)], 1⟩ 0 42 []
    (by decide)

theorem end_iterator_increment_safe_witness :
    lookupNode [(0, (⟨3, none⟩ : QueueNode Nat))] 0 = some ⟨3, none⟩ ∧
    iterInc (⟨[(0, ⟨3, none⟩)], [], 1⟩ : Mem Nat) ⟨some 0⟩ = some ⟨none⟩ :=
  ⟨by decide, (end_iterator_increment_safe ⟨[(0, ⟨3, none⟩)], [], 1⟩).2 0 ⟨3, none⟩ (by decide)⟩

end PmrSpec
